import Mathlib

/-!
Shallow embedding of the XGBoostPredictor header (src/xgboostpredictor.h):
tree model data structures, the transformation engine, tree traversal,
the load-time tree validator and the output-group assembly.

Floats are modelled as rationals; the transcendental functions `expf` and
`std::log` are abstract parameters (the properties below never depend on
their values).  The unbounded `while (true)` traversal loop and the
recursive cycle check are modelled with explicit fuel: running out of fuel
is a distinct outcome, and an out-of-bounds vector index (undefined
behaviour in the C++) is a distinct outcome as well.
-/

namespace XGBoostPredictor

/-- Output margin transformations (enum class Transformation). -/
inductive Transformation
  | NONE
  | SIGMOID
  | SOFTMAX
deriving DecidableEq, Repr

/-- Sparse data array: vector item index is feature index
(`using Data = std::vector<std::optional<float>>`). -/
abbrev Data := List (Option ℚ)

/-- Decision node of a tree (struct Node). -/
structure Node where
  value : ℚ := 0
  feature : Int := -1
  yes : Nat := 0
  no : Nat := 0
  missing : Nat := 0
deriving DecidableEq, Repr

/-- Tree (`using Tree = std::vector<Node>`). -/
abbrev Tree := List Node

/-- Predictor (`using Predictor = std::vector<Tree>`). -/
abbrev Predictor := List Tree

/-- Model: multiple predictors for multiclass prediction, transformed base
score and the transformation according to the objective (struct Model). -/
structure Model where
  predictors : List Predictor
  base_score : ℚ := 0
  transformation : Transformation := Transformation.NONE

/-- `std::numeric_limits<float>::min()`: the smallest positive normal
binary32 value, `2 ^ (-126)`.  This is the initial value of the running
maximum in `transformSoftmax` (it is NOT the minimum finite float, which
would be `std::numeric_limits<float>::lowest()`). -/
def fltMin : ℚ := mkRat 1 (2 ^ 126)

/-- The running maximum computed by the first loop of `transformSoftmax`:
`float max = std::numeric_limits<float>::min(); for (p : predictions) max = std::max(max, p);`. -/
def softmaxMax (predictions : List ℚ) : ℚ :=
  predictions.foldl max fltMin

/-- `transformSoftmax`: subtract the running maximum, exponentiate, then
normalize by the sum of the exponentials (the `double` accumulation is
exact here because the model is exact rationals). -/
def transformSoftmax (exp : ℚ → ℚ) (predictions : List ℚ) : List ℚ :=
  let m := softmaxMax predictions
  let exps := predictions.map fun p => exp (p - m)
  let sum := exps.foldl (· + ·) 0
  exps.map fun p => p / sum

/-- `transformSigmoid`: elementwise `1 / (1 + expf(-p))`. -/
def transformSigmoid (exp : ℚ → ℚ) (predictions : List ℚ) : List ℚ :=
  predictions.map fun p => 1 / (1 + exp (-p))

/-- `transform`: output margin transformation according to the objective;
empty input returns immediately, NONE is a no-op. -/
def transform (exp : ℚ → ℚ) (predictions : List ℚ) (t : Transformation) : List ℚ :=
  if predictions.isEmpty then predictions
  else
    match t with
    | Transformation.SIGMOID => transformSigmoid exp predictions
    | Transformation.SOFTMAX => transformSoftmax exp predictions
    | Transformation.NONE => predictions

/-- The index the traversal moves to from a decision node
(the body of the `while` loop in `predict(const Data&, const Tree&)` after
the leaf test; only reached when `node.feature >= 0`):
`if (unsigned(node.feature) < size && data[node.feature]) index = *data[node.feature] < node.value ? node.yes : node.no; else index = node.missing;`. -/
def nextIndex (data : Data) (node : Node) : Nat :=
  if h : node.feature.toNat < data.length then
    match data.get ⟨node.feature.toNat, h⟩ with
    | some v => if v < node.value then node.yes else node.no
    | none => node.missing
  else node.missing

/-- Outcome of the tree traversal: a leaf value, an out-of-bounds access
(undefined behaviour of `tree[index]` in the C++), or fuel exhaustion
(the C++ loop has no iteration bound). -/
inductive EvalResult
  | leaf (value : ℚ)
  | oobAccess
  | fuelOut
deriving DecidableEq, Repr

/-- `predict(const Data&, const Tree&)`: iterative descent from a node
index, with explicit fuel for the unbounded `while (true)` loop. -/
def evalTree (data : Data) (tree : Tree) : Nat → Nat → EvalResult
  | 0, _ => EvalResult.fuelOut
  | fuel + 1, index =>
    match tree.get? index with
    | none => EvalResult.oobAccess
    | some node =>
      if node.feature < 0 then EvalResult.leaf node.value
      else evalTree data tree fuel (nextIndex data node)

/-- Sequence a list of fallible computations, as the C++ loops do:
the first failure (nontermination / undefined behaviour) propagates. -/
def collectSome (f : α → Option β) : List α → Option (List β)
  | [] => some []
  | a :: as => (f a).bind fun b => (collectSome f as).map fun bs => b :: bs

/-- Tree prediction starting at the root, as used by
`predict(const Data&, const Predictor&)`: a leaf value, or `none` when the
traversal ran out of fuel or indexed out of bounds. -/
def predictTreeRoot (data : Data) (tree : Tree) (fuel : Nat) : Option ℚ :=
  match evalTree data tree fuel 0 with
  | EvalResult.leaf v => some v
  | _ => none

/-- `predict(const Data&, const Predictor&)`: sum the trees' leaf values in
order starting from `0.0`, then add the model's base score. -/
def predictGroup (data : Data) (predictor : Predictor) (base : ℚ) (fuel : Nat) : Option ℚ :=
  (collectSome (fun t => predictTreeRoot data t fuel) predictor).map
    fun vs => vs.foldl (· + ·) 0 + base

/-- `predict(const Data&, bool)`: one score per predictor (output group),
then the model's transformation unless `outputMargin` is set. -/
def predictOne (exp : ℚ → ℚ) (m : Model) (data : Data) (outputMargin : Bool) (fuel : Nat) :
    Option (List ℚ) :=
  (collectSome (fun p => predictGroup data p m.base_score fuel) m.predictors).map
    fun predictions =>
      if outputMargin then predictions else transform exp predictions m.transformation

/-- The error thrown by the batch `predict` overload. -/
inductive PredictError
  | incompatibleModelSize
deriving DecidableEq, Repr

/-- `predict(const std::vector<Data>&, bool)`: requires exactly one
predictor, scores every instance with `m_model.predictors.front()`, then
applies the model's transformation unless `outputMargin` is set. -/
def predictBatch (exp : ℚ → ℚ) (m : Model) (batch : List Data) (outputMargin : Bool)
    (fuel : Nat) : Except PredictError (Option (List ℚ)) :=
  if m.predictors.length ≠ 1 then Except.error PredictError.incompatibleModelSize
  else
    Except.ok ((collectSome (fun d => predictGroup d (m.predictors.getD 0 []) m.base_score fuel) batch).map
      fun scores =>
        if outputMargin then scores else transform exp scores m.transformation)

/-- Errors raised by the tree validator, plus the undefined-behaviour
marker for an unguarded out-of-bounds vector access. -/
inductive TreeError
  | emptyTree
  | indexOutOfRange
  | cycle
  | oobAccess
deriving DecidableEq, Repr

/-- The index-range scan of `check(const Tree&)`: a node fails when it is a
decision node (`feature >= 0`) and `yes`, `no` or `missing` is strictly
greater than `tree.size()`. -/
def checkIndices (tree : Tree) : Bool :=
  tree.all fun node =>
    !(decide (0 ≤ node.feature) &&
      (decide (tree.length < node.yes) || decide (tree.length < node.no) ||
        decide (tree.length < node.missing)))

/-- Propagate failure through the sequenced recursive calls of the cycle
check: `none` is fuel exhaustion, an error aborts, success passes the
updated visited array on. -/
def andThen (r : Option (Except TreeError (List Bool)))
    (f : List Bool → Option (Except TreeError (List Bool))) :
    Option (Except TreeError (List Bool)) :=
  match r with
  | none => none
  | some (Except.error e) => some (Except.error e)
  | some (Except.ok visited) => f visited

/-- `check(const Tree&, size_t, std::vector<bool>&)`: the recursive cycle
check.  A leaf terminates without marking; an already-visited decision node
raises the cycle error; otherwise the node is marked and the check recurses
into `yes`, into `no` when it differs from `yes`, and into `missing` when
it differs from both.  `tree[index]` out of bounds is undefined behaviour,
modelled as the `oobAccess` error. -/
def checkFrom (tree : Tree) : Nat → Nat → List Bool → Option (Except TreeError (List Bool))
  | 0, _, _ => none
  | fuel + 1, index, visited =>
    match tree.get? index with
    | none => some (Except.error TreeError.oobAccess)
    | some node =>
      if node.feature < 0 then some (Except.ok visited)
      else if visited.getD index false then some (Except.error TreeError.cycle)
      else
        andThen (checkFrom tree fuel node.yes (visited.set index true)) fun v1 =>
        andThen (if node.no ≠ node.yes then checkFrom tree fuel node.no v1
                 else some (Except.ok v1)) fun v2 =>
        if node.missing ≠ node.yes ∧ node.missing ≠ node.no then
          checkFrom tree fuel node.missing v2
        else some (Except.ok v2)

/-- `check(const Tree&)`: reject an empty tree, then scan the child index
ranges, then run the cycle check from the root with a fresh visited array.
Fuel `tree.length + 1` bounds the recursion depth (each recursion level
marks a fresh node). -/
def checkTree (tree : Tree) : Option (Except TreeError Unit) :=
  if tree.isEmpty then some (Except.error TreeError.emptyTree)
  else if checkIndices tree = false then some (Except.error TreeError.indexOutOfRange)
  else
    (checkFrom tree (tree.length + 1) 0 (List.replicate tree.length false)).map
      fun r => r.map fun _ => ()

/-- Errors raised while assembling output groups in `parse`. -/
inductive ParseError
  | groupMismatch
  | negativeGroup
deriving DecidableEq, Repr

/-- One step of the group-building loop:
`predictors.resize(predictors.size() < group + 1 ? group + 1 : predictors.size()); predictors[group].emplace_back(predictor[i]);`. -/
def addTree (predictors : List Predictor) (group : Nat) (t : Tree) : List Predictor :=
  let resized :=
    if predictors.length < group + 1 then
      predictors ++ List.replicate (group + 1 - predictors.length) []
    else predictors
  resized.set group (resized.getD group [] ++ [t])

/-- The group-building loop of `parse` over the (tree, group id) pairs in
file order: a negative group id aborts, otherwise the tree is appended to
its group's predictor. -/
def buildGroupsLoop : List (Tree × Int) → List Predictor → Except ParseError (List Predictor)
  | [], acc => Except.ok acc
  | (t, g) :: rest, acc =>
    if g < 0 then Except.error ParseError.negativeGroup
    else buildGroupsLoop rest (addTree acc g.toNat t)

/-- Group assembly in `parse`: `tree_info` must have one entry per tree,
then the trees are scanned in file order and appended to their groups. -/
def buildGroups (trees : List Tree) (tree_info : List Int) : Except ParseError (List Predictor) :=
  if tree_info.length ≠ trees.length then Except.error ParseError.groupMismatch
  else buildGroupsLoop (trees.zip tree_info) []

/-- The error thrown by `transformBaseScore` for a logistic-family
objective with a base score outside (0,1). -/
inductive BaseScoreError
  | invalidBaseScore
deriving DecidableEq, Repr

/-- `transformBaseScore`: remap the raw base score according to the
objective name (`log` stands for `std::log`). -/
def transformBaseScore (log : ℚ → ℚ) (objective : String) (base_score : ℚ) :
    Except BaseScoreError ℚ :=
  if objective = "reg:logistic" ∨ objective = "binary:logistic" ∨
      objective = "binary:logitraw" then
    if base_score ≤ 0 ∨ 1 ≤ base_score then Except.error BaseScoreError.invalidBaseScore
    else Except.ok (-(log (1 / base_score - 1)))
  else if objective = "reg:gamma" ∨ objective = "reg:tweedie" ∨
      objective = "count:poisson" ∨ objective = "survival:aft" ∨
      objective = "survival:cox" then
    Except.ok (log base_score)
  else Except.ok base_score

/-- Decision-node child indices all strictly inside the tree. -/
def ChildrenInBounds (tree : Tree) : Prop :=
  ∀ node ∈ tree, 0 ≤ node.feature →
    node.yes < tree.length ∧ node.no < tree.length ∧ node.missing < tree.length

/-- A leaf node with the given value. -/
def leafNode (v : ℚ) : Node :=
  { value := v, feature := -1, yes := 0, no := 0, missing := 0 }

/-- A one-node tree whose decision node's children all equal `tree.size()`:
the bound check of the validator accepts it, the cycle walk then indexes
one past the end. -/
def treeEdge : Tree :=
  [{ value := 0, feature := 0, yes := 1, no := 1, missing := 1 }]

/-- A tree whose root's `yes` child is the root itself. -/
def treeSelfLoop : Tree :=
  [{ value := 0, feature := 0, yes := 0, no := 1, missing := 1 }, leafNode 0]

/-- Two decision nodes pointing back at each other. -/
def treeMutual : Tree :=
  [{ value := 0, feature := 0, yes := 1, no := 2, missing := 2 },
   { value := 0, feature := 0, yes := 0, no := 2, missing := 2 },
   leafNode 0]

/-- Two distinct decision nodes (1 and 2) sharing the same leaf child 3. -/
def treeSharedLeaf : Tree :=
  [{ value := 0, feature := 0, yes := 1, no := 2, missing := 2 },
   { value := 0, feature := 0, yes := 3, no := 3, missing := 3 },
   { value := 0, feature := 0, yes := 3, no := 3, missing := 3 },
   leafNode 0]

/-- A small decision tree: root tests feature 0 against threshold 5;
`yes` leads to leaf 10, `no` to leaf 20, `missing` to leaf 30. -/
def treeBranch : Tree :=
  [{ value := 5, feature := 0, yes := 1, no := 2, missing := 3 },
   leafNode 10, leafNode 20, leafNode 30]

/-! ## Helper lemmas -/

theorem nextIndex_cases (data : Data) (node : Node) :
    nextIndex data node = node.yes ∨ nextIndex data node = node.no ∨
      nextIndex data node = node.missing := by
  unfold nextIndex
  split
  · split
    · split
      · exact Or.inl rfl
      · exact Or.inr (Or.inl rfl)
    · exact Or.inr (Or.inr rfl)
  · exact Or.inr (Or.inr rfl)

theorem nextIndex_present {data : Data} {node : Node}
    (hf : node.feature.toNat < data.length) {v : ℚ}
    (hv : data.get ⟨node.feature.toNat, hf⟩ = some v) :
    nextIndex data node = if v < node.value then node.yes else node.no := by
  unfold nextIndex
  rw [dif_pos hf, hv]

theorem nextIndex_missing_slot {data : Data} {node : Node}
    (hnone : data.getD node.feature.toNat none = none) :
    nextIndex data node = node.missing := by
  unfold nextIndex
  split
  · next h =>
      have hg : data.get ⟨node.feature.toNat, h⟩ = none := by
        rw [List.getD_eq_getElem?_getD, List.getElem?_eq_getElem h] at hnone
        simpa [List.get_eq_getElem] using hnone
      rw [hg]
  · rfl

theorem nextIndex_out_of_range {data : Data} {node : Node}
    (h : data.length ≤ node.feature.toNat) :
    nextIndex data node = node.missing := by
  unfold nextIndex
  rw [dif_neg (Nat.not_lt.mpr h)]

theorem evalTree_leaf_step {tree : Tree} {i : Nat} {node : Node}
    (h : tree.get? i = some node) (hf : node.feature < 0) (data : Data) (fuel : Nat) :
    evalTree data tree (fuel + 1) i = EvalResult.leaf node.value := by
  have h' : tree[i]? = some node := by rw [← List.get?_eq_getElem?]; exact h
  simp [evalTree, h', hf]

theorem evalTree_decision_step {tree : Tree} {i : Nat} {node : Node}
    (h : tree.get? i = some node) (hf : 0 ≤ node.feature) (data : Data) (fuel : Nat) :
    evalTree data tree (fuel + 1) i = evalTree data tree fuel (nextIndex data node) := by
  have hnf : ¬node.feature < 0 := Int.not_lt.mpr hf
  have h' : tree[i]? = some node := by rw [← List.get?_eq_getElem?]; exact h
  simp [evalTree, h', hnf]

theorem collectSome_length {f : α → Option β} :
    ∀ {as : List α} {bs : List β}, collectSome f as = some bs → bs.length = as.length := by
  intro as
  induction as with
  | nil =>
      intro bs h
      simp only [collectSome, Option.some.injEq] at h
      simp [← h]
  | cons a as ih =>
      intro bs h
      simp only [collectSome] at h
      cases hfa : f a with
      | none => rw [hfa] at h; simp at h
      | some b =>
          rw [hfa] at h
          rcases Option.map_eq_some'.mp h with ⟨bs', hbs', hcons⟩
          simp [← hcons, ih hbs']

theorem collectSome_getD (f : α → Option β) (a₀ : α) (b₀ : β) :
    ∀ {as : List α} {bs : List β}, collectSome f as = some bs →
      ∀ i, i < as.length → f (as.getD i a₀) = some (bs.getD i b₀) := by
  intro as
  induction as with
  | nil => intro bs _ i hi; simp at hi
  | cons a as ih =>
      intro bs h i hi
      simp only [collectSome] at h
      cases hfa : f a with
      | none => rw [hfa] at h; simp at h
      | some b =>
          rw [hfa] at h
          rcases Option.map_eq_some'.mp h with ⟨bs', hbs', hcons⟩
          cases i with
          | zero => simpa [← hcons] using hfa
          | succ i =>
              simpa [← hcons] using ih hbs' i (Nat.lt_of_succ_lt_succ hi)

theorem transform_length (exp : ℚ → ℚ) (predictions : List ℚ) (t : Transformation) :
    (transform exp predictions t).length = predictions.length := by
  unfold transform
  split
  · rfl
  · cases t <;> simp [transformSigmoid, transformSoftmax]

theorem predictTreeRoot_eq_some {data : Data} {tree : Tree} {fuel : Nat} {v : ℚ}
    (h : predictTreeRoot data tree fuel = some v) :
    evalTree data tree fuel 0 = EvalResult.leaf v := by
  unfold predictTreeRoot at h
  cases he : evalTree data tree fuel 0 <;> rw [he] at h <;> simp_all

theorem andThen_eq_ok {r : Option (Except TreeError (List Bool))}
    {f : List Bool → Option (Except TreeError (List Bool))} {w : List Bool}
    (h : andThen r f = some (Except.ok w)) :
    ∃ v, r = some (Except.ok v) ∧ f v = some (Except.ok w) := by
  cases r with
  | none => simp [andThen] at h
  | some x =>
      cases x with
      | error e => simp [andThen] at h
      | ok v => exact ⟨v, rfl, h⟩

theorem andThen_eq_error {r : Option (Except TreeError (List Bool))}
    {f : List Bool → Option (Except TreeError (List Bool))} {e : TreeError}
    (h : andThen r f = some (Except.error e)) :
    r = some (Except.error e) ∨
      ∃ v, r = some (Except.ok v) ∧ f v = some (Except.error e) := by
  cases r with
  | none => simp [andThen] at h
  | some x =>
      cases x with
      | error e' =>
          simp only [andThen, Option.some.injEq, Except.error.injEq] at h
          exact Or.inl (by rw [h])
      | ok v => exact Or.inr ⟨v, rfl, h⟩

theorem checkFrom_visited_step {tree : Tree} {i : Nat} {node : Node}
    (h : tree.get? i = some node) (hf : 0 ≤ node.feature) {visited : List Bool}
    (hv : visited.getD i false = true) (fuel : Nat) :
    checkFrom tree (fuel + 1) i visited = some (Except.error TreeError.cycle) := by
  have h' : tree[i]? = some node := by rw [← List.get?_eq_getElem?]; exact h
  have hnf : ¬node.feature < 0 := Int.not_lt.mpr hf
  rw [List.getD_eq_getElem?_getD] at hv
  simp [checkFrom, h', hnf, hv]

theorem checkFrom_leaf_step {tree : Tree} {i : Nat} {node : Node}
    (h : tree.get? i = some node) (hf : node.feature < 0) (visited : List Bool)
    (fuel : Nat) :
    checkFrom tree (fuel + 1) i visited = some (Except.ok visited) := by
  have h' : tree[i]? = some node := by rw [← List.get?_eq_getElem?]; exact h
  simp [checkFrom, h', hf]

theorem checkFrom_decision_step {tree : Tree} {i : Nat} {node : Node}
    (h : tree.get? i = some node) (hf : 0 ≤ node.feature) {visited : List Bool}
    (hv : visited.getD i false = false) (fuel : Nat) :
    checkFrom tree (fuel + 1) i visited =
      (andThen (checkFrom tree fuel node.yes (visited.set i true)) fun v1 =>
        andThen (if node.no ≠ node.yes then checkFrom tree fuel node.no v1
                 else some (Except.ok v1)) fun v2 =>
          if node.missing ≠ node.yes ∧ node.missing ≠ node.no then
            checkFrom tree fuel node.missing v2
          else some (Except.ok v2)) := by
  have h' : tree[i]? = some node := by rw [← List.get?_eq_getElem?]; exact h
  have hnf : ¬node.feature < 0 := Int.not_lt.mpr hf
  rw [List.getD_eq_getElem?_getD] at hv
  simp [checkFrom, h', hnf, hv]

theorem checkFrom_error_cases {tree : Tree} :
    ∀ {fuel i : Nat} {visited : List Bool} {e : TreeError},
      checkFrom tree fuel i visited = some (Except.error e) →
      e = TreeError.oobAccess ∨ e = TreeError.cycle := by
  intro fuel
  induction fuel with
  | zero => intro i visited e h; simp [checkFrom] at h
  | succ fuel ih =>
      intro i visited e h
      cases hget : tree.get? i with
      | none =>
          simp only [checkFrom, hget, Option.some.injEq, Except.error.injEq] at h
          exact Or.inl h.symm
      | some node =>
          have h' : tree[i]? = some node := by rw [← List.get?_eq_getElem?]; exact hget
          by_cases hf : node.feature < 0
          · simp [checkFrom, h', hf] at h
          · by_cases hv : visited.getD i false
            · rw [checkFrom_visited_step hget (Int.not_lt.mp hf) hv fuel] at h
              simp only [Option.some.injEq, Except.error.injEq] at h
              exact Or.inr h.symm
            · rw [checkFrom_decision_step hget (Int.not_lt.mp hf)
                (Bool.eq_false_iff.mpr hv) fuel] at h
              rcases andThen_eq_error h with hA | ⟨v1, _, hrest⟩
              · exact ih hA
              · rcases andThen_eq_error hrest with hB | ⟨v2, _, hg⟩
                · split at hB
                  · exact ih hB
                  · simp at hB
                · split at hg
                  · exact ih hg
                  · simp at hg

theorem evalTree_no_oob {tree : Tree} (hb : ChildrenInBounds tree) (data : Data) :
    ∀ (fuel i : Nat), i < tree.length → evalTree data tree fuel i ≠ EvalResult.oobAccess := by
  intro fuel
  induction fuel with
  | zero => intro i _; simp [evalTree]
  | succ fuel ih =>
      intro i hi
      have hget : tree.get? i = some (tree.get ⟨i, hi⟩) := List.get?_eq_get hi
      have hmem : tree.get ⟨i, hi⟩ ∈ tree := List.get?_mem hget
      by_cases hf : (tree.get ⟨i, hi⟩).feature < 0
      · rw [evalTree_leaf_step hget hf]; simp
      · rw [evalTree_decision_step hget (Int.not_lt.mp hf)]
        have hbs := hb _ hmem (Int.not_lt.mp hf)
        rcases nextIndex_cases data (tree.get ⟨i, hi⟩) with hn | hn | hn <;> rw [hn]
        · exact ih _ hbs.1
        · exact ih _ hbs.2.1
        · exact ih _ hbs.2.2

theorem checkFrom_no_oob {tree : Tree} (hb : ChildrenInBounds tree) :
    ∀ (fuel i : Nat) (visited : List Bool), i < tree.length →
      checkFrom tree fuel i visited ≠ some (Except.error TreeError.oobAccess) := by
  intro fuel
  induction fuel with
  | zero => intro i visited _; simp [checkFrom]
  | succ fuel ih =>
      intro i visited hi h
      have hget : tree.get? i = some (tree.get ⟨i, hi⟩) := List.get?_eq_get hi
      have hmem : tree.get ⟨i, hi⟩ ∈ tree := List.get?_mem hget
      by_cases hf : (tree.get ⟨i, hi⟩).feature < 0
      · rw [checkFrom_leaf_step hget hf] at h; simp at h
      · have hf' := Int.not_lt.mp hf
        have hbs := hb _ hmem hf'
        by_cases hv : visited.getD i false
        · rw [checkFrom_visited_step hget hf' hv] at h; simp at h
        · rw [checkFrom_decision_step hget hf' (Bool.eq_false_iff.mpr hv)] at h
          rcases andThen_eq_error h with hA | ⟨v1, _, hrest⟩
          · exact ih _ _ hbs.1 hA
          · rcases andThen_eq_error hrest with hB | ⟨v2, _, hg⟩
            · split at hB
              · exact ih _ _ hbs.2.1 hB
              · simp at hB
            · split at hg
              · exact ih _ _ hbs.2.2 hg
              · simp at hg

theorem checkFrom_ok_leaf {tree : Tree} (data : Data) :
    ∀ (fuel : Nat) {i : Nat} {visited w : List Bool},
      checkFrom tree fuel i visited = some (Except.ok w) →
      ∃ v, evalTree data tree fuel i = EvalResult.leaf v := by
  intro fuel
  induction fuel with
  | zero => intro i visited w h; simp [checkFrom] at h
  | succ fuel ih =>
      intro i visited w h
      cases hget : tree.get? i with
      | none =>
          simp only [checkFrom, hget] at h
          simp at h
      | some node =>
          by_cases hf : node.feature < 0
          · exact ⟨node.value, evalTree_leaf_step hget hf data fuel⟩
          · have hf' := Int.not_lt.mp hf
            by_cases hv : visited.getD i false
            · rw [checkFrom_visited_step hget hf' hv] at h; simp at h
            · rw [checkFrom_decision_step hget hf' (Bool.eq_false_iff.mpr hv)] at h
              rcases andThen_eq_ok h with ⟨v1, hA, hrest⟩
              rcases andThen_eq_ok hrest with ⟨v2, hB, hg⟩
              rw [evalTree_decision_step hget hf']
              rcases nextIndex_cases data node with hn | hn | hn <;> rw [hn]
              · exact ih hA
              · by_cases hno : node.no = node.yes
                · rw [hno]; exact ih hA
                · rw [if_pos hno] at hB
                  exact ih hB
              · by_cases hm1 : node.missing = node.yes
                · rw [hm1]; exact ih hA
                · by_cases hm2 : node.missing = node.no
                  · rw [hm2]
                    by_cases hno : node.no = node.yes
                    · rw [hno]; exact ih hA
                    · rw [if_pos hno] at hB
                      exact ih hB
                  · rw [if_pos ⟨hm1, hm2⟩] at hg
                    exact ih hg

theorem getD_append_replicate_nil (preds : List Predictor) (n k : Nat) :
    (preds ++ List.replicate n ([] : Predictor)).getD k [] = preds.getD k [] := by
  rw [List.getD_eq_getElem?_getD, List.getD_eq_getElem?_getD]
  rcases Nat.lt_or_ge k preds.length with hk | hk
  · rw [List.getElem?_append_left hk]
  · rw [List.getElem?_append_right hk, List.getElem?_eq_none hk, List.getElem?_replicate]
    split <;> rfl

theorem addTree_length (preds : List Predictor) (g : Nat) (t : Tree) :
    (addTree preds g t).length = max preds.length (g + 1) := by
  unfold addTree
  split
  · next hlt =>
      rw [List.length_set, List.length_append, List.length_replicate]
      omega
  · next hge =>
      rw [List.length_set]
      omega

theorem addTree_getD (preds : List Predictor) (g : Nat) (t : Tree) (k : Nat) :
    (addTree preds g t).getD k [] =
      if k = g then preds.getD g [] ++ [t] else preds.getD k [] := by
  unfold addTree
  split
  · next hlt =>
      by_cases hk : k = g
      · subst hk
        have hglen : k < (preds ++ List.replicate (k + 1 - preds.length)
            ([] : Predictor)).length := by
          rw [List.length_append, List.length_replicate]; omega
        rw [if_pos rfl, List.getD_eq_getElem?_getD, List.getElem?_set_self hglen]
        rw [Option.getD_some, getD_append_replicate_nil]
      · rw [if_neg hk, List.getD_eq_getElem?_getD, List.getElem?_set_ne (Ne.symm hk),
          ← List.getD_eq_getElem?_getD, getD_append_replicate_nil]
  · next hge =>
      by_cases hk : k = g
      · subst hk
        have hglen : k < preds.length := by omega
        rw [if_pos rfl, List.getD_eq_getElem?_getD, List.getElem?_set_self hglen]
        rfl
      · rw [if_neg hk, List.getD_eq_getElem?_getD, List.getElem?_set_ne (Ne.symm hk),
          ← List.getD_eq_getElem?_getD]

theorem buildGroupsLoop_error_iff :
    ∀ (pairs : List (Tree × Int)) (acc : List Predictor),
      (∃ e, buildGroupsLoop pairs acc = Except.error e) ↔ ∃ p ∈ pairs, p.2 < 0 := by
  intro pairs
  induction pairs with
  | nil => intro acc; simp [buildGroupsLoop]
  | cons hd rest ih =>
      intro acc
      obtain ⟨t, g⟩ := hd
      by_cases hg : g < 0
      · constructor
        · intro _
          exact ⟨(t, g), List.mem_cons_self _ _, hg⟩
        · intro _
          exact ⟨ParseError.negativeGroup, by simp [buildGroupsLoop, hg]⟩
      · simp only [buildGroupsLoop, if_neg hg]
        rw [ih]
        constructor
        · rintro ⟨p, hp, hneg⟩
          exact ⟨p, List.mem_cons_of_mem _ hp, hneg⟩
        · rintro ⟨p, hp, hneg⟩
          rcases List.mem_cons.mp hp with rfl | hp
          · exact absurd hneg hg
          · exact ⟨p, hp, hneg⟩

theorem buildGroupsLoop_ok :
    ∀ (pairs : List (Tree × Int)) (acc preds : List Predictor),
      buildGroupsLoop pairs acc = Except.ok preds →
      preds.length = pairs.foldl (fun n p => max n (p.2.toNat + 1)) acc.length
      ∧ ∀ k : Nat, preds.getD k [] =
          acc.getD k [] ++ ((pairs.filter fun p => p.2 = (k : Int)).map Prod.fst) := by
  intro pairs
  induction pairs with
  | nil =>
      intro acc preds h
      simp only [buildGroupsLoop, Except.ok.injEq] at h
      subst h
      simp
  | cons hd rest ih =>
      intro acc preds h
      obtain ⟨t, g⟩ := hd
      simp only [buildGroupsLoop] at h
      split at h
      · simp at h
      · next hg =>
          have hg0 : 0 ≤ g := Int.not_lt.mp hg
          obtain ⟨hlen, hget⟩ := ih (addTree acc g.toNat t) preds h
          constructor
          · rw [hlen, addTree_length, List.foldl_cons]
          · intro k
            rw [hget k, addTree_getD, List.filter_cons]
            by_cases hk : k = g.toNat
            · have hgk : g = (k : Int) := by omega
              rw [if_pos hk, if_pos (by simp [hgk]), hk]
              simp [List.append_assoc]
            · have hgk : ¬(g = (k : Int)) := by omega
              rw [if_neg hk, if_neg (by simp [hgk])]

theorem foldl_max_toNat :
    ∀ (l : List (Tree × Int)) (a : Int), -1 ≤ a → (∀ p ∈ l, 0 ≤ p.2) →
      l.foldl (fun n p => max n (p.2.toNat + 1)) (a + 1).toNat =
        (l.foldl (fun n p => max n p.2) a + 1).toNat := by
  intro l
  induction l with
  | nil => intro a _ _; rfl
  | cons hd rest ih =>
      intro a ha hpos
      simp only [List.foldl_cons]
      have h0 : 0 ≤ hd.2 := hpos hd (List.mem_cons_self _ _)
      have hstep : max (a + 1).toNat (hd.2.toNat + 1) = (max a hd.2 + 1).toNat := by
        omega
      rw [hstep]
      exact ih (max a hd.2) (by omega) fun p hp => hpos p (List.mem_cons_of_mem _ hp)

/-! ## The claims -/

/-- Claim C1 (code bug): `transformSoftmax` initializes the running maximum
from `std::numeric_limits<float>::min()`, which is the smallest positive
normal float `2 ^ (-126)`, not the minimum finite float.  For the
all-negative input `[-1]` the value subtracted is therefore `fltMin`, while
the vector's true maximum is `-1`: the subtracted value does not equal the
true maximum, contradicting the claim. -/
theorem spec_c1 :
    softmaxMax [(-1 : ℚ)] = fltMin ∧ [(-1 : ℚ)].foldl max (-1 : ℚ) = -1 ∧
      fltMin ≠ -1 ∧ (-1 : ℚ) < fltMin :=
  ⟨by decide, by decide, by decide, by decide⟩

/-- Claim C2: at a decision node (`0 ≤ feature`, node present in the tree),
the traversal moves to `yes` exactly when the feature index is within the
data's length, the slot holds a present value and that value is strictly
below the threshold, to `no` when the slot is present but the value is not
strictly below, and to `missing` whenever the slot is absent or the feature
index is out of range; concrete instances on `treeBranch` exercise all four
outcomes. -/
theorem spec_c2 :
    (∀ (data : Data) (tree : Tree) (fuel i : Nat) (node : Node),
        tree.get? i = some node → 0 ≤ node.feature →
        ∀ (hf : node.feature.toNat < data.length) (v : ℚ),
          data.get ⟨node.feature.toNat, hf⟩ = some v →
          evalTree data tree (fuel + 1) i =
            evalTree data tree fuel (if v < node.value then node.yes else node.no))
    ∧ (∀ (data : Data) (tree : Tree) (fuel i : Nat) (node : Node),
        tree.get? i = some node → 0 ≤ node.feature →
        data.getD node.feature.toNat none = none →
        evalTree data tree (fuel + 1) i = evalTree data tree fuel node.missing)
    ∧ (∀ (data : Data) (tree : Tree) (fuel i : Nat) (node : Node),
        tree.get? i = some node → 0 ≤ node.feature →
        data.length ≤ node.feature.toNat →
        evalTree data tree (fuel + 1) i = evalTree data tree fuel node.missing)
    ∧ evalTree [some 1] treeBranch 2 0 = EvalResult.leaf 10
    ∧ evalTree [some 7] treeBranch 2 0 = EvalResult.leaf 20
    ∧ evalTree [none] treeBranch 2 0 = EvalResult.leaf 30
    ∧ evalTree [] treeBranch 2 0 = EvalResult.leaf 30 := by
  refine ⟨?_, ?_, ?_, by rfl, by rfl, by rfl, by rfl⟩
  · intro data tree fuel i node h hf hlt v hv
    rw [evalTree_decision_step h hf, nextIndex_present hlt hv]
  · intro data tree fuel i node h hf hnone
    rw [evalTree_decision_step h hf, nextIndex_missing_slot hnone]
  · intro data tree fuel i node h hf hout
    rw [evalTree_decision_step h hf, nextIndex_out_of_range hout]

/-- Claim C3: the bound check of the validator fails a node exactly when it
is a decision node and one of its child indices is strictly greater than
the node count; `checkTree` raises the out-of-range error exactly when the
tree is non-empty and that scan fails; and the one-past-the-end child index
of `treeEdge` (equal to the node count) passes the bound check. -/
theorem spec_c3 :
    (∀ tree : Tree, checkIndices tree = false ↔
        ∃ node ∈ tree, 0 ≤ node.feature ∧
          (tree.length < node.yes ∨ tree.length < node.no ∨
            tree.length < node.missing))
    ∧ (∀ tree : Tree, checkTree tree = some (Except.error TreeError.indexOutOfRange) ↔
        (tree.isEmpty = false ∧ checkIndices tree = false))
    ∧ checkIndices treeEdge = true := by
  refine ⟨?_, ?_, by decide⟩
  · intro tree
    rw [checkIndices, List.all_eq_false]
    constructor
    · rintro ⟨x, hx, hp⟩
      simp at hp
      obtain ⟨h1, h2⟩ := hp
      exact ⟨x, hx, h1, by omega⟩
    · rintro ⟨x, hx, hf, hor⟩
      refine ⟨x, hx, ?_⟩
      simp [hf]
      omega
  · intro tree
    unfold checkTree
    split
    · next hemp => simp [hemp]
    · next hemp =>
        split
        · next hidx => simp [hemp, hidx]
        · next hidx =>
            simp only [Bool.not_eq_true] at hemp
            constructor
            · intro hmap
              rcases Option.map_eq_some'.mp hmap with ⟨r, hr, hmapr⟩
              cases r with
              | error e =>
                  simp only [Except.map] at hmapr
                  rcases checkFrom_error_cases hr with h1 | h1 <;>
                    simp [h1] at hmapr
              | ok w => simp [Except.map] at hmapr
            · intro ⟨_, hfalse⟩
              exact absurd hfalse hidx

/-- Claim C4: the cycle walk raises the cycle error at an already-marked
decision node, terminates at a leaf without marking, and at an unmarked
decision node marks it and recurses into `yes`, into `no` only when it
differs from `yes`, and into `missing` only when it differs from both;
consequently a self-referential or mutually-referential decision-node child
is rejected with the cycle error while two decision nodes sharing the same
leaf child are accepted. -/
theorem spec_c4 :
    (∀ (tree : Tree) (fuel i : Nat) (visited : List Bool) (node : Node),
        tree.get? i = some node → 0 ≤ node.feature → visited.getD i false = true →
        checkFrom tree (fuel + 1) i visited = some (Except.error TreeError.cycle))
    ∧ (∀ (tree : Tree) (fuel i : Nat) (visited : List Bool) (node : Node),
        tree.get? i = some node → node.feature < 0 →
        checkFrom tree (fuel + 1) i visited = some (Except.ok visited))
    ∧ (∀ (tree : Tree) (fuel i : Nat) (visited : List Bool) (node : Node),
        tree.get? i = some node → 0 ≤ node.feature → visited.getD i false = false →
        checkFrom tree (fuel + 1) i visited =
          (andThen (checkFrom tree fuel node.yes (visited.set i true)) fun v1 =>
            andThen (if node.no ≠ node.yes then checkFrom tree fuel node.no v1
                     else some (Except.ok v1)) fun v2 =>
              if node.missing ≠ node.yes ∧ node.missing ≠ node.no then
                checkFrom tree fuel node.missing v2
              else some (Except.ok v2)))
    ∧ checkTree treeSelfLoop = some (Except.error TreeError.cycle)
    ∧ checkTree treeMutual = some (Except.error TreeError.cycle)
    ∧ checkTree treeSharedLeaf = some (Except.ok ()) := by
  refine ⟨?_, ?_, ?_, by rfl, by rfl, by rfl⟩
  · intro tree fuel i visited node h hf hv
    exact checkFrom_visited_step h hf hv fuel
  · intro tree fuel i visited node h hf
    exact checkFrom_leaf_step h hf visited fuel
  · intro tree fuel i visited node h hf hv
    exact checkFrom_decision_step h hf hv fuel

/-- Claim C6: for the three logistic-family objectives, `transformBaseScore`
fails with the invalid-base-score error exactly when the base score is not
strictly between 0 and 1, and otherwise returns `-log (1/base_score - 1)`. -/
theorem spec_c6 (log : ℚ → ℚ) (objective : String) (b : ℚ)
    (h : objective = "reg:logistic" ∨ objective = "binary:logistic" ∨
      objective = "binary:logitraw") :
    (transformBaseScore log objective b = Except.error BaseScoreError.invalidBaseScore ↔
      ¬(0 < b ∧ b < 1))
    ∧ (0 < b → b < 1 →
        transformBaseScore log objective b = Except.ok (-(log (1 / b - 1)))) := by
  have hiff : (b ≤ 0 ∨ 1 ≤ b) ↔ ¬(0 < b ∧ b < 1) := by
    rw [not_and_or, not_lt, not_lt]
  unfold transformBaseScore
  rw [if_pos h]
  by_cases hcond : b ≤ 0 ∨ 1 ≤ b
  · rw [if_pos hcond]
    exact ⟨iff_of_true rfl (hiff.mp hcond),
      fun h0 h1 => absurd ⟨h0, h1⟩ (hiff.mp hcond)⟩
  · rw [if_neg hcond]
    have hb : 0 < b ∧ b < 1 := by
      by_contra hn
      exact hcond (hiff.mpr hn)
    exact ⟨iff_of_false (by simp) (not_not.mpr hb), fun _ _ => rfl⟩

/-- Concrete instance of claim C6 at objective `binary:logistic` and base
score `1/2`. -/
theorem spec_c6_witness :
    (transformBaseScore id "binary:logistic" (1 / 2 : ℚ) =
        Except.error BaseScoreError.invalidBaseScore ↔
      ¬((0 : ℚ) < 1 / 2 ∧ (1 / 2 : ℚ) < 1))
    ∧ ((0 : ℚ) < 1 / 2 → (1 / 2 : ℚ) < 1 →
        transformBaseScore id "binary:logistic" (1 / 2 : ℚ) =
          Except.ok (-(id (1 / (1 / 2 : ℚ) - 1)))) :=
  spec_c6 id "binary:logistic" (1 / 2) (Or.inr (Or.inl rfl))

/-- Claim C8: for every tree accepted by the validator and every feature
vector, the iterative descent from the root reaches a leaf within
`tree.length + 1` steps — the load-time acyclicity check suffices to rule
out nontermination of evaluation. -/
theorem spec_c8 (tree : Tree) (data : Data)
    (h : checkTree tree = some (Except.ok ())) :
    ∃ v, evalTree data tree (tree.length + 1) 0 = EvalResult.leaf v := by
  unfold checkTree at h
  split at h
  · simp at h
  · split at h
    · simp at h
    · rcases Option.map_eq_some'.mp h with ⟨r, hr, hmapr⟩
      cases r with
      | error e => simp [Except.map] at hmapr
      | ok w => exact checkFrom_ok_leaf data (tree.length + 1) hr

/-- Concrete instance of claim C8: the validated `treeBranch` is evaluated
to a leaf on the empty feature vector. -/
theorem spec_c8_witness :
    ∃ v, evalTree [] treeBranch (treeBranch.length + 1) 0 = EvalResult.leaf v :=
  spec_c8 treeBranch [] (by rfl)

/-- Claim C10: the bound check accepts a decision-node child index equal to
`tree.length`, and validating such a tree performs an out-of-bounds access
(the `oobAccess` outcome of the total embedding); whereas for every tree
whose decision-node child indices are all strictly below `tree.length`,
neither the traversal nor the cycle walk can reach an out-of-bounds
access from any in-range start index. -/
theorem spec_c10 :
    (checkIndices treeEdge = true ∧
      checkTree treeEdge = some (Except.error TreeError.oobAccess))
    ∧ (∀ (tree : Tree) (data : Data) (fuel i : Nat),
        ChildrenInBounds tree → i < tree.length →
        evalTree data tree fuel i ≠ EvalResult.oobAccess)
    ∧ (∀ (tree : Tree) (fuel i : Nat) (visited : List Bool),
        ChildrenInBounds tree → i < tree.length →
        checkFrom tree fuel i visited ≠ some (Except.error TreeError.oobAccess)) := by
  refine ⟨⟨by decide, by rfl⟩, ?_, ?_⟩
  · intro tree data fuel i hb hi
    exact evalTree_no_oob hb data fuel i hi
  · intro tree fuel i visited hb hi
    exact checkFrom_no_oob hb fuel i visited hi

/-- Claim C5: the batch overload fails with the incompatible-model-size
error exactly when the model does not have exactly one output group; on
success there is one score per instance, in input order, each raw margin
computed via `predictGroup` from the sole group, with the model's
transformation applied exactly when `outputMargin` is false. -/
theorem spec_c5 :
    (∀ (exp : ℚ → ℚ) (m : Model) (batch : List Data) (margin : Bool) (fuel : Nat),
        predictBatch exp m batch margin fuel =
            Except.error PredictError.incompatibleModelSize ↔
          m.predictors.length ≠ 1)
    ∧ (∀ (exp : ℚ → ℚ) (m : Model) (batch : List Data) (margin : Bool) (fuel : Nat)
        (out : List ℚ),
        predictBatch exp m batch margin fuel = Except.ok (some out) →
        out.length = batch.length
        ∧ ∃ g raw, m.predictors = [g] ∧ raw.length = batch.length
            ∧ (∀ i, i < batch.length →
                predictGroup (batch.getD i []) g m.base_score fuel = some (raw.getD i 0))
            ∧ out = if margin then raw else transform exp raw m.transformation)
    ∧ predictBatch id ⟨[[[leafNode 3]]], 1, Transformation.NONE⟩ [[], []] true 1 =
        Except.ok (some [4, 4]) := by
  refine ⟨?_, ?_, ?_⟩
  · intro exp m batch margin fuel
    unfold predictBatch
    split
    · next hc => simp [hc]
    · next hc => simp [hc]
  · intro exp m batch margin fuel out h
    unfold predictBatch at h
    split at h
    · simp at h
    · next hc =>
        have hlen : m.predictors.length = 1 := not_ne_iff.mp hc
        rcases List.length_eq_one.mp hlen with ⟨g, hg⟩
        simp only [Except.ok.injEq] at h
        rcases Option.map_eq_some'.mp h with ⟨raw, hraw, hout⟩
        have hlenr := collectSome_length hraw
        refine ⟨?_, g, raw, hg, hlenr, ?_, hout.symm⟩
        · rw [← hout]
          split
          · exact hlenr
          · rw [transform_length]; exact hlenr
        · intro i hi
          have hpg := collectSome_getD _ ([] : Data) (0 : ℚ) hraw i hi
          simpa [hg] using hpg
  · norm_num [predictBatch, predictGroup, predictTreeRoot, collectSome, evalTree, leafNode]

/-- Claim C7: on success, single-instance predict returns one entry per
output group; the raw entry of group `g` is the ordered sum of the leaf
values of that group's trees plus the model's base score, and the model's
transformation is applied to the raw vector exactly when `outputMargin` is
false. -/
theorem spec_c7 :
    (∀ (exp : ℚ → ℚ) (m : Model) (data : Data) (margin : Bool) (fuel : Nat)
        (out : List ℚ),
        predictOne exp m data margin fuel = some out →
        out.length = m.predictors.length
        ∧ ∃ raw : List ℚ, raw.length = m.predictors.length
            ∧ (∀ g, g < m.predictors.length →
                ∃ leaves : List ℚ, leaves.length = (m.predictors.getD g []).length
                  ∧ (∀ j, j < leaves.length →
                      evalTree data ((m.predictors.getD g []).getD j []) fuel 0 =
                        EvalResult.leaf (leaves.getD j 0))
                  ∧ raw.getD g 0 = leaves.foldl (· + ·) 0 + m.base_score)
            ∧ out = if margin then raw else transform exp raw m.transformation)
    ∧ predictOne id ⟨[[[leafNode 3]], [[leafNode 5]]], 1, Transformation.NONE⟩ [] true 1 =
        some [4, 6] := by
  constructor
  · intro exp m data margin fuel out h
    unfold predictOne at h
    rcases Option.map_eq_some'.mp h with ⟨raw, hraw, hout⟩
    have hlenr := collectSome_length hraw
    refine ⟨?_, raw, hlenr, ?_, hout.symm⟩
    · rw [← hout]
      split
      · exact hlenr
      · rw [transform_length]; exact hlenr
    · intro g hg
      have hpg := collectSome_getD _ ([] : Predictor) (0 : ℚ) hraw g hg
      simp only at hpg
      unfold predictGroup at hpg
      rcases Option.map_eq_some'.mp hpg with ⟨leaves, hleaves, hsum⟩
      refine ⟨leaves, collectSome_length hleaves, ?_, hsum.symm⟩
      intro j hj
      have hj' : j < (m.predictors.getD g []).length := by
        rw [← collectSome_length hleaves]; exact hj
      have hroot := collectSome_getD _ ([] : Tree) (0 : ℚ) hleaves j hj'
      exact predictTreeRoot_eq_some hroot
  · norm_num [predictOne, predictGroup, predictTreeRoot, collectSome, evalTree, leafNode]

/-- Claim C9: group assembly fails exactly when `tree_info`'s length differs
from the number of trees or some entry is negative; on success the number
of predictors is one plus the maximum group id, each group holds exactly
the trees assigned to it in file order, and a group id absent from
`tree_info` yields an empty predictor (the concrete instance has a gap at
group 1). -/
theorem spec_c9 :
    (∀ (trees : List Tree) (info : List Int),
        (∃ e, buildGroups trees info = Except.error e) ↔
          (info.length ≠ trees.length ∨ ∃ g ∈ info, g < 0))
    ∧ (∀ (trees : List Tree) (info : List Int) (preds : List Predictor),
        buildGroups trees info = Except.ok preds →
        preds.length = (info.foldl max (-1 : Int) + 1).toNat
        ∧ (∀ k : Nat, preds.getD k [] =
            (((trees.zip info).filter fun p => p.2 = (k : Int)).map Prod.fst))
        ∧ (∀ k : Nat, (k : Int) ∉ info → preds.getD k [] = []))
    ∧ buildGroups [[leafNode 1], [leafNode 2]] [0, 2] =
        Except.ok [[[leafNode 1]], [], [[leafNode 2]]] := by
  refine ⟨?_, ?_, by rfl⟩
  · intro trees info
    unfold buildGroups
    split
    · next hlen =>
        constructor
        · intro _; exact Or.inl hlen
        · intro _; exact ⟨ParseError.groupMismatch, rfl⟩
    · next hlen =>
        have hlen' : info.length = trees.length := not_ne_iff.mp hlen
        have hsnd : (trees.zip info).map Prod.snd = info :=
          List.map_snd_zip _ _ (le_of_eq hlen')
        rw [buildGroupsLoop_error_iff]
        constructor
        · rintro ⟨p, hp, hneg⟩
          exact Or.inr ⟨p.2, (List.of_mem_zip hp).2, hneg⟩
        · rintro (hc | ⟨g, hgmem, hneg⟩)
          · exact (hc hlen').elim
          · rw [← hsnd] at hgmem
            rcases List.mem_map.mp hgmem with ⟨p, hp, hpe⟩
            exact ⟨p, hp, hpe ▸ hneg⟩
  · intro trees info preds h
    unfold buildGroups at h
    split at h
    · simp at h
    · next hlen =>
        have hlen' : info.length = trees.length := not_ne_iff.mp hlen
        have hsnd : (trees.zip info).map Prod.snd = info :=
          List.map_snd_zip _ _ (le_of_eq hlen')
        obtain ⟨hL, hG⟩ := buildGroupsLoop_ok _ [] preds h
        have hpos : ∀ g ∈ info, 0 ≤ g := by
          intro g hgmem
          by_contra hneg
          have herr : ∃ e, buildGroupsLoop (trees.zip info) [] = Except.error e := by
            rw [buildGroupsLoop_error_iff]
            rw [← hsnd] at hgmem
            rcases List.mem_map.mp hgmem with ⟨p, hp, hpe⟩
            exact ⟨p, hp, by omega⟩
          rcases herr with ⟨e, he⟩
          rw [he] at h
          simp at h
        have hpos' : ∀ p ∈ trees.zip info, 0 ≤ p.2 :=
          fun p hp => hpos p.2 (List.of_mem_zip hp).2
        have hMain : ∀ k : Nat, preds.getD k [] =
            (((trees.zip info).filter fun p => p.2 = (k : Int)).map Prod.fst) := by
          intro k
          rw [hG k]
          simp
        refine ⟨?_, hMain, ?_⟩
        · have hinfo : info.foldl max (-1 : Int) =
              (trees.zip info).foldl (fun a p => max a p.2) (-1) := by
            conv_lhs => rw [← hsnd]
            rw [List.foldl_map]
          rw [hL, hinfo]
          have hfold := foldl_max_toNat (trees.zip info) (-1) (by norm_num) hpos'
          simpa using hfold
        · intro k hk
          have hfil : ((trees.zip info).filter fun p => p.2 = (k : Int)) = [] := by
            rw [List.filter_eq_nil_iff]
            intro p hp
            have hmem : p.2 ∈ info := (List.of_mem_zip hp).2
            simp only [decide_eq_true_eq]
            intro hpe
            exact hk (hpe ▸ hmem)
          rw [hMain k, hfil]
          rfl

end XGBoostPredictor
